import Mathlib

/-!
Verification of the second-order propagation core of the `backpack` repository.

Tensors are modelled as a shape (list of dimension sizes) together with a flat
list of rational entries in row-major (C-contiguous) order, matching the
layout semantics of the torch tensors used by the source.  Reshapes keep the
flat data; transposition-style einsums permute it.  Fallible operations
(shape assertions, Python exceptions) return `Option`, with `none` standing
for an aborted call.
-/

/-- A dense tensor: shape and flat row-major data. -/
structure Tensor where
  shape : List Nat
  data : List ℚ
deriving DecidableEq, Repr

/-- Matrix entry access for a rank-2 tensor of shape `[r, c]`:
`entry t i j = t.data[i * c + j]` (0 outside the stored range). -/
def Tensor.entry (t : Tensor) (i j : Nat) : ℚ :=
  t.data.getD (i * t.shape.getD 1 0 + j) 0

/-- Flat-data permutation realising `einsum("ndv->vnd")` on a tensor of shape
`[n, d, v]`: output flat index `iv * (n*d) + p` (with `p < n*d` the merged
`(n,d)` index) reads input flat index `p * v + iv`. -/
def permute_ndv_to_vnd (n d v : Nat) (data : List ℚ) : List ℚ :=
  (List.range (v * (n * d))).map fun idx =>
    data.getD (idx % (n * d) * v + idx / (n * d)) 0

/-- Flat-data permutation realising `einsum("vnc->ncv")` on a tensor of shape
`[v, n, c]`: output flat index `p * v + iv` (with `p < n*c` the merged
`(n,c)` index) reads input flat index `iv * (n*c) + p`. -/
def permute_vnc_to_ncv (v n c : Nat) (data : List ℚ) : List ℚ :=
  (List.range (n * c * v)).map fun idx =>
    data.getD (idx % v * (n * c) + idx / v) 0

/-- Flat-data permutation realising `einsum("vi->iv")` on a tensor of shape
`[v, i]` (matrix transpose). -/
def permute_vi_to_iv (v i : Nat) (data : List ℚ) : List ℚ :=
  (List.range (i * v)).map fun idx =>
    data.getD (idx % v * i + idx / v) 0

/-- `new_output_convention(old_mat, module)` from
`backpack/core/derivatives/utils.py`: asserts `old_mat.shape ==
(N, out_features, V)` where `N` is the leading output dimension and
`out_features` the product of the remaining output dimensions, transposes
`ndv->vnd` and reshapes to `[V, N, *out_features_shape]`. -/
def new_output_convention (old_mat : Tensor) (output_shape : List Nat) : Option Tensor :=
  match output_shape, old_mat.shape with
  | N :: out_features_shape, [n, d, v] =>
    if n = N ∧ d = out_features_shape.prod then
      some ⟨v :: N :: out_features_shape, permute_ndv_to_vnd n d v old_mat.data⟩
    else none
  | _, _ => none

/-- `old_output_convention(new_mat, module)`: asserts `new_mat.shape ==
(V, N) + out_features_shape`, reshapes to `[V, N, out_features]` and
transposes `vnc->ncv`, giving `[N, out_features, V]`. -/
def old_output_convention (new_mat : Tensor) (output_shape : List Nat) : Option Tensor :=
  match output_shape, new_mat.shape with
  | N :: out_features_shape, v :: n :: rest =>
    if n = N ∧ rest = out_features_shape then
      some ⟨[N, out_features_shape.prod, v],
        permute_vnc_to_ncv v n out_features_shape.prod new_mat.data⟩
    else none
  | _, _ => none

/-- `new_input_convention(old_mat, module)`: same conversion as
`new_output_convention` but against the layer's `input0` shape. -/
def new_input_convention (old_mat : Tensor) (input0_shape : List Nat) : Option Tensor :=
  match input0_shape, old_mat.shape with
  | N :: in_features_shape, [n, d, v] =>
    if n = N ∧ d = in_features_shape.prod then
      some ⟨v :: N :: in_features_shape, permute_ndv_to_vnd n d v old_mat.data⟩
    else none
  | _, _ => none

/-- `old_input_convention(new_mat, module)`: same conversion as
`old_output_convention` but against the layer's `input0` shape. -/
def old_input_convention (new_mat : Tensor) (input0_shape : List Nat) : Option Tensor :=
  match input0_shape, new_mat.shape with
  | N :: in_features_shape, v :: n :: rest =>
    if n = N ∧ rest = in_features_shape then
      some ⟨[N, in_features_shape.prod, v],
        permute_vnc_to_ncv v n in_features_shape.prod new_mat.data⟩
    else none
  | _, _ => none

/-- `old_weight_convention(new_mat, module, sum_batch)`: reads `V` and `N`
from the first two axes, asserts the remaining axes match the weight shape
(`(V,) + weight_shape` when `sum_batch`, else `(V, N) + weight_shape`),
flattens the weight axes and moves `V` last, giving `[weight_numel, V]`
resp. `[N, weight_numel, V]`. -/
def old_weight_convention (new_mat : Tensor) (weight_shape : List Nat)
    (sum_batch : Bool) : Option Tensor :=
  match new_mat.shape with
  | V :: N :: rest =>
    if sum_batch then
      if N :: rest = weight_shape then
        some ⟨[weight_shape.prod, V],
          permute_vi_to_iv V weight_shape.prod new_mat.data⟩
      else none
    else
      if rest = weight_shape then
        some ⟨[N, weight_shape.prod, V],
          permute_vnc_to_ncv V N weight_shape.prod new_mat.data⟩
      else none
  | _ => none

/-- `add_V_dim(old_mat)`: `unsqueeze(-1)`, appending a trailing axis of size 1. -/
def add_V_dim (old_mat : Tensor) : Tensor :=
  ⟨old_mat.shape ++ [1], old_mat.data⟩

/-- `remove_V_dim(old_mat)`: `squeeze(-1)`, dropping the trailing axis when it
has size 1 and leaving the tensor unchanged otherwise. -/
def remove_V_dim (old_mat : Tensor) : Tensor :=
  if old_mat.shape.getLast? = some 1 then ⟨old_mat.shape.dropLast, old_mat.data⟩
  else old_mat

/-- Recorded forward context of a layer: output shape, input shape and weight
shape (`module.output_shape`, `module.input0_shape`, `module.weight.shape`). -/
structure ModuleRecord where
  output_shape : List Nat
  input0_shape : List Nat
  weight_shape : List Nat
deriving DecidableEq, Repr

/-- `jac_t_new_shape_convention(jmp)` applied to `(module, mat)`: promotes a
rank-2 `mat` with `add_V_dim`, converts the output-side layout old→new, runs
the wrapped handler, converts its result input-side new→old and strips the
synthetic `V` axis again. -/
def jac_t_new_shape_convention (jmp : ModuleRecord → Tensor → Option Tensor)
    (module : ModuleRecord) (mat : Tensor) : Option Tensor :=
  let is_vec := mat.shape.length = 2
  let mat_used := if is_vec then add_V_dim mat else mat
  (new_output_convention mat_used module.output_shape).bind fun converted =>
    (jmp module converted).bind fun result =>
      (old_input_convention result module.input0_shape).map fun back =>
        if is_vec then remove_V_dim back else back

/-- `weight_jac_t_new_shape_convention(jmp)` applied to
`(module, mat, kwargs)`: like `jac_t_new_shape_convention` but the result is
converted through `old_weight_convention`, with `sum_batch` read from the
keyword arguments (defaulting to `true` when absent). -/
def weight_jac_t_new_shape_convention (jmp : ModuleRecord → Tensor → Option Tensor)
    (module : ModuleRecord) (mat : Tensor) (kwargs_sum_batch : Option Bool) :
    Option Tensor :=
  let is_vec := mat.shape.length = 2
  let mat_used := if is_vec then add_V_dim mat else mat
  (new_output_convention mat_used module.output_shape).bind fun converted =>
    (jmp module converted).bind fun result =>
      (old_weight_convention result module.weight_shape
          (kwargs_sum_batch.getD true)).map fun back =>
        if is_vec then remove_V_dim back else back

/-- `jac_new_shape_convention(jmp)` applied to `(module, mat)`: the forward
Jacobian wrapper; converts input-side old→new on the way in and output-side
new→old on the way out. -/
def jac_new_shape_convention (jmp : ModuleRecord → Tensor → Option Tensor)
    (module : ModuleRecord) (mat : Tensor) : Option Tensor :=
  let is_vec := mat.shape.length = 2
  let mat_used := if is_vec then add_V_dim mat else mat
  (new_input_convention mat_used module.input0_shape).bind fun converted =>
    (jmp module converted).bind fun result =>
      (old_output_convention result module.output_shape).map fun back =>
        if is_vec then remove_V_dim back else back

/- ------------------------------------------------------------------ -/
/- Kronecker-factor algebra (`backpack/extensions/secondorder/utils.py`) -/
/- ------------------------------------------------------------------ -/

/-- `is_tensor_of_order(order, tensor)`: the tensor's rank equals `order`. -/
def is_tensor_of_order (order : Nat) (tensor : Tensor) : Bool :=
  tensor.shape.length == order

/-- `is_matrix(tensor)`: rank-2 check. -/
def is_matrix (tensor : Tensor) : Bool :=
  is_tensor_of_order 2 tensor

/-- `all_tensors_of_order(order, tensors)`. -/
def all_tensors_of_order (order : Nat) (tensors : List Tensor) : Bool :=
  tensors.all fun t => is_tensor_of_order order t

/-- Core of `einsum("ij,kl->ikjl") ... .view(r1*r2, c1*c2)`: the flat data of
the Kronecker product.  Flat index `row * (c1*c2) + col` holds
`A[row / r2, col / c2] * B[row % r2, col % c2]`, which is the row-major
layout of the rank-4 `ikjl` tensor with `row = i * r2 + k`, `col = j * c2 + l`. -/
def kron2 (A B : Tensor) : Tensor :=
  let r2 := B.shape.getD 0 0
  let c1 := A.shape.getD 1 0
  let c2 := B.shape.getD 1 0
  ⟨[A.shape.getD 0 0 * r2, c1 * c2],
    (List.range (A.shape.getD 0 0 * r2 * (c1 * c2))).map fun idx =>
      A.entry (idx / (c1 * c2) / r2) (idx % (c1 * c2) / c2) *
        B.entry (idx / (c1 * c2) % r2) (idx % (c1 * c2) % c2)⟩

/-- `matrix_from_two_kron_facs(A, B)`: asserts both factors are matrices, then
returns `A ⊗ B`. -/
def matrix_from_two_kron_facs (A B : Tensor) : Option Tensor :=
  if is_matrix A ∧ is_matrix B then some (kron2 A B) else none

/-- Python result of `matrix_from_kron_facs`: an exception (`raised`), the
value `None` (`pyNone`), or a tensor. -/
inductive KronResult where
  | raised
  | pyNone
  | value (t : Tensor)
deriving DecidableEq, Repr

/-- The loop of `matrix_from_kron_facs`: the accumulator `mat` starts as
`None`; the first factor must pass `is_matrix`, later factors are folded in
through `matrix_from_two_kron_facs`; a failed assertion raises. -/
def kron_fold : Option Tensor → List Tensor → KronResult
  | none, [] => .pyNone
  | some m, [] => .value m
  | none, f :: rest => if is_matrix f then kron_fold (some f) rest else .raised
  | some m, f :: rest =>
    match matrix_from_two_kron_facs m f with
    | some m2 => kron_fold (some m2) rest
    | none => .raised

/-- `matrix_from_kron_facs(factors)`: `A ⊗ B ⊗ C ⊗ ...` by repeated pairwise
products; returns `None` unchanged when the factor list is empty. -/
def matrix_from_kron_facs (factors : List Tensor) : KronResult :=
  kron_fold none factors

/-- Product of the factors' row counts. -/
def rowProd (factors : List Tensor) : Nat :=
  (factors.map fun f => f.shape.getD 0 0).prod

/-- Product of the factors' column counts (`col_dims` in the source). -/
def colProd (factors : List Tensor) : Nat :=
  (factors.map fun f => f.shape.getD 1 0).prod

/-- `get_letters(max_letters=26)`: the lowercase letters available to the
einsum-equation builder, in order. -/
def get_letters : List Char :=
  (List.range 26).map fun i => Char.ofNat (97 + i)

/-- The loop of `vp_einsum_equation`: per factor, two fresh letters are drawn
with `next(letters)`; an exhausted generator raises `StopIteration` (`none`). -/
def vp_equation_go : Nat → List Char → String → String → String → Option String
  | 0, _, in_str, v_str, out_str => some (v_str ++ in_str ++ "->" ++ out_str)
  | n + 1, row_idx :: col_idx :: rest, in_str, v_str, out_str =>
    vp_equation_go n rest (in_str ++ "," ++ String.mk [row_idx, col_idx])
      (v_str.push col_idx) (out_str.push row_idx)
  | _ + 1, _, _, _, _ => none

/-- `vp_einsum_equation(num_factors)`. -/
def vp_einsum_equation (num_factors : Nat) : Option String :=
  let e : String := ""
  vp_equation_go num_factors get_letters e e e

/-- Contiguous slice `v[start : start+len]` of a flat data list. -/
def block_slice (v : List ℚ) (start len : Nat) : List ℚ :=
  (v.drop start).take len

/-- Semantics of `einsum(vp_einsum_equation(k), v_reshaped, *factors)` followed
by `view(-1)`: with `factors = A :: rest`, output flat index
`i * rowProd(rest) + ρ` holds `Σ_j A[i, j] · (rest applied to the j-th column
block of v)[ρ]`; unfolding the recursion gives exactly the multi-contraction
`out[r1..rk] = Σ_{c1..ck} v[c1..ck] · Π_i factors_i[r_i, c_i]` in row-major
order. -/
def vp_einsum_apply : List Tensor → List ℚ → List ℚ
  | [], v => v
  | A :: rest, v =>
    (List.range (A.shape.getD 0 0 * rowProd rest)).map fun idx =>
      Finset.sum (Finset.range (A.shape.getD 1 0)) fun j =>
        A.entry (idx / rowProd rest) j *
          (vp_einsum_apply rest (block_slice v (j * colProd rest) (colProd rest))).getD
            (idx % rowProd rest) 0

/-- `vp_from_kron_facs(factors)`: asserts all factors are rank 2, reads the
factor shapes (failing on an empty list, where `zip(*shapes)` cannot be
unpacked), builds the einsum equation (failing with `StopIteration` when the
letters run out), and returns the closure `vp`.  The closure asserts its
argument is one-dimensional, reshapes it to the column dimensions (a view
that requires the element counts to agree) and contracts. -/
def vp_from_kron_facs (factors : List Tensor) : Option (Tensor → Option Tensor) :=
  if all_tensors_of_order 2 factors then
    match factors with
    | [] => none
    | _ :: _ =>
      match vp_einsum_equation factors.length with
      | none => none
      | some _ =>
        some fun v =>
          if v.shape.length = 1 then
            if v.data.length = colProd factors then
              some ⟨[rowProd factors], vp_einsum_apply factors v.data⟩
            else none
          else none
  else none

/-- `multiply_vec_with_kron_facs(factors, v)`. -/
def multiply_vec_with_kron_facs (factors : List Tensor) (v : Tensor) : Option Tensor :=
  match vp_from_kron_facs factors with
  | some vp => vp v
  | none => none

/-- Dense matrix-vector product: the reference meaning of
`matrix_from_kron_facs(factors) @ v` on the spec's side of the Kronecker
algebra equivalence. -/
def dense_matvec (m : Tensor) (v : List ℚ) : List ℚ :=
  (List.range (m.shape.getD 0 0)).map fun i =>
    Finset.sum (Finset.range (m.shape.getD 1 0)) fun j => m.entry i j * v.getD j 0

/-- Entry `(i, j)` of the Kronecker product of a factor list, by mixed-radix
decomposition of the row and column indices (1 for the empty list). -/
def kronListEntry : List Tensor → Nat → Nat → ℚ
  | [], _, _ => 1
  | A :: rest, i, j =>
    A.entry (i / rowProd rest) (j / colProd rest) *
      kronListEntry rest (i % rowProd rest) (j % colProd rest)

/- ------------------------------------------------------------------ -/
/- HBP convolution handler (`backpack/secondorder/hbp/conv2d.py`)      -/
/- ------------------------------------------------------------------ -/

/-- Modelled from the spec: the `BackpropStrategy` selector
(`backpack/secondorder/strategies.py` is not among the sources); its closed
set of values is the exact symmetric square-root propagation (`is_sqrt`)
versus the batch-averaged propagation (`is_batch_average`). -/
inductive BackpropStrategy where
  | batch_average
  | sqrt
deriving DecidableEq, Repr

/-- `BackpropStrategy.is_batch_average`. -/
def BackpropStrategy.is_batch_average : BackpropStrategy → Bool
  | .batch_average => true
  | .sqrt => false

/-- `BackpropStrategy.is_sqrt`. -/
def BackpropStrategy.is_sqrt : BackpropStrategy → Bool
  | .batch_average => false
  | .sqrt => true

/-- Modelled from the spec: the `ExpectationApproximation` selector
(`backpack/secondorder/strategies.py` is not among the sources): exact
expectation over the per-sample Jacobian (`should_average_param_jac`) versus
the non-averaged Monte-Carlo variant. -/
inductive ExpectationApproximation where
  | average_param_jac
  | monte_carlo
deriving DecidableEq, Repr

/-- `ExpectationApproximation.should_average_param_jac`. -/
def ExpectationApproximation.should_average_param_jac :
    ExpectationApproximation → Bool
  | .average_param_jac => true
  | .monte_carlo => false

/-- `einsum('bijc->bic', tensor)`: sum over the third axis of a rank-4
tensor.  Output flat index decomposes as `(ib, ii, ic)`, reading input flat
index `((ib*i + ii)*j + jj)*c + ic`. -/
def einsum_bijc_to_bic (t : Tensor) : Option Tensor :=
  match t.shape with
  | [b, i, j, c] =>
    some ⟨[b, i, c],
      (List.range (b * i * c)).map fun idx =>
        Finset.sum (Finset.range j) fun jj =>
          t.data.getD
            (((idx / (i * c) * i + idx % (i * c) / c) * j + jj) * c + idx % (i * c) % c) 0⟩
  | _ => none

/-- `einsum('bic,blc->il', t, t)`: contract a rank-3 tensor with itself over
the batch and last axes. -/
def einsum_bic_blc_to_il (t : Tensor) : Option Tensor :=
  match t.shape with
  | [b, i, c] =>
    some ⟨[i, i],
      (List.range (i * i)).map fun idx =>
        Finset.sum (Finset.range b) fun ib =>
          Finset.sum (Finset.range c) fun ic =>
            t.data.getD ((ib * i + idx / i) * c + ic) 0 *
              t.data.getD ((ib * i + idx % i) * c + ic) 0⟩
  | _ => none

/-- `einsum('bik,bjk->ij', X, X)`: the Gram matrix `Xᵀ X` of the unfolded
input, contracted over batch and patch axes. -/
def einsum_bik_bjk_to_ij (X : Tensor) : Option Tensor :=
  match X.shape with
  | [b, i, k] =>
    some ⟨[i, i],
      (List.range (i * i)).map fun idx =>
        Finset.sum (Finset.range b) fun ib =>
          Finset.sum (Finset.range k) fun kk =>
            X.data.getD ((ib * i + idx / i) * k + kk) 0 *
              X.data.getD ((ib * i + idx % i) * k + kk) 0⟩
  | _ => none

/-- Elementwise division of a tensor by a natural scalar (`tensor / batch`). -/
def tensor_div (t : Tensor) (n : Nat) : Tensor :=
  ⟨t.shape, t.data.map fun x => x / (n : ℚ)⟩

/-- `HBPConv2d._factor_from_sqrt`: the backpropagated square root from the
context is passed through `separate_channels_and_pixels` (not among the
sources; its result is taken as the argument `sqrt_sep`, of shape
`[b, i, j, c]`), summed over the pixel axis (`einsum('bijc->bic')`) and
contracted with itself (`einsum('bic,blc->il')`). -/
def hbp_conv2d_factor_from_sqrt (sqrt_sep : Tensor) : Option Tensor :=
  (einsum_bijc_to_bic sqrt_sep).bind einsum_bic_blc_to_il

/-- `HBPConv2d._factors_from_input`: `X` is the unfolded input
(`unfold_func(module)(module.input0)`; the unfolding itself is not among the
sources).  Reads `batch = X.size(0)` (failing on a 0-dimensional tensor),
raises `NotImplementedError` under the averaging expectation approximation,
and otherwise yields the single factor `einsum('bik,bjk->ij', X, X) / batch`. -/
def hbp_conv2d_factors_from_input (X : Tensor) (ea : ExpectationApproximation) :
    Option (List Tensor) :=
  if X.shape.length = 0 then none
  else if ea.should_average_param_jac then none
  else (einsum_bik_bjk_to_ij X).map fun xtx => [tensor_div xtx (X.shape.getD 0 0)]

/-- `HBPConv2d.weight`: raises `NotImplementedError` on the batch-average
strategy; under the square-root strategy returns the square-root factor
followed by the factors generated from the unfolded input. -/
def hbp_conv2d_weight (sqrt_sep X : Tensor) (bp : BackpropStrategy)
    (ea : ExpectationApproximation) : Option (List Tensor) :=
  if bp.is_batch_average then none
  else if bp.is_sqrt then
    (hbp_conv2d_factor_from_sqrt sqrt_sep).bind fun f1 =>
      (hbp_conv2d_factors_from_input X ea).map fun fs => f1 :: fs
  else none

/-- `HBPConv2d.bias`: raises `NotImplementedError` on the batch-average
strategy; under the square-root strategy returns the one-element list holding
the square-root factor.  The expectation approximation is never consulted. -/
def hbp_conv2d_bias (sqrt_sep : Tensor) (bp : BackpropStrategy)
    (ea : ExpectationApproximation) : Option (List Tensor) :=
  if bp.is_batch_average then none
  else if bp.is_sqrt then
    (hbp_conv2d_factor_from_sqrt sqrt_sep).map fun f1 => [f1]
  else none

/- ------------------------------------------------------------------ -/
/- Helper lemmas on flat-index arithmetic and the permutations.        -/
/- ------------------------------------------------------------------ -/

theorem getD_range_map (f : Nat → ℚ) (n i : Nat) (h : i < n) :
    ((List.range n).map f).getD i 0 = f i := by
  rw [List.getD_eq_getElem?_getD]
  simp [List.getElem?_map, List.getElem?_range, h]

theorem decomp_div (a b m : Nat) (h : b < m) : (a * m + b) / m = a := by
  rw [Nat.add_comm, Nat.mul_comm, Nat.add_mul_div_left _ _ (Nat.lt_of_le_of_lt (Nat.zero_le _) h),
    Nat.div_eq_of_lt h, Nat.zero_add]

theorem decomp_mod (a b m : Nat) (h : b < m) : (a * m + b) % m = b := by
  rw [Nat.add_comm, Nat.mul_comm, Nat.add_mul_mod_self_left, Nat.mod_eq_of_lt h]

theorem permute_ndv_to_vnd_length (n d v : Nat) (data : List ℚ) :
    (permute_ndv_to_vnd n d v data).length = v * (n * d) := by
  simp [permute_ndv_to_vnd]

theorem permute_vnc_to_ncv_length (v n c : Nat) (data : List ℚ) :
    (permute_vnc_to_ncv v n c data).length = n * c * v := by
  simp [permute_vnc_to_ncv]

/-- The two output-side permutations are mutually inverse on flat data. -/
theorem permute_roundtrip (n d v : Nat) (data : List ℚ)
    (hlen : data.length = n * d * v) :
    permute_vnc_to_ncv v n d (permute_ndv_to_vnd n d v data) = data := by
  apply List.ext_getElem
  · rw [permute_vnc_to_ncv_length, hlen]
  · intro idx h1 h2
    rw [permute_vnc_to_ncv_length] at h1
    have hv : 0 < v := by
      rcases Nat.eq_zero_or_pos v with h | h
      · subst h; simp at h1
      · exact h
    have hnd : 0 < n * d := by
      rcases Nat.eq_zero_or_pos (n * d) with h | h
      · rw [h] at h1; simp at h1
      · exact h
    have hidx : idx < v * (n * d) := by
      rw [Nat.mul_comm]
      omega
    have hdiv : idx / v < n * d := Nat.div_lt_of_lt_mul hidx
    have hmod : idx % v < v := Nat.mod_lt _ hv
    have hk : idx % v * (n * d) + idx / v < v * (n * d) := by
      calc idx % v * (n * d) + idx / v < idx % v * (n * d) + n * d := by omega
        _ = (idx % v + 1) * (n * d) := by ring
        _ ≤ v * (n * d) := Nat.mul_le_mul_right _ (by omega)
    simp only [permute_vnc_to_ncv, List.getElem_map, List.getElem_range]
    simp only [permute_ndv_to_vnd]
    rw [getD_range_map _ _ _ hk, decomp_div _ _ _ hdiv, decomp_mod _ _ _ hdiv]
    have hdm : idx / v * v + idx % v = idx := Nat.div_add_mod' idx v
    rw [List.getD_eq_getElem?_getD, List.getElem?_eq_getElem (by omega : idx / v * v + idx % v < data.length)]
    simp only [Option.getD_some]
    congr 1

/-- C1: converting a `[N, prod(featureDims), V]` matrix to the new output
layout and back to the old output layout reproduces it element-for-element. -/
theorem c1_output_convention_roundtrip (N V : Nat) (fdims : List Nat) (data : List ℚ)
    (hlen : data.length = N * fdims.prod * V) :
    (new_output_convention ⟨[N, fdims.prod, V], data⟩ (N :: fdims)).bind
        (fun t => old_output_convention t (N :: fdims)) =
      some ⟨[N, fdims.prod, V], data⟩ := by
  simp only [new_output_convention, old_output_convention, and_self, if_true, Option.some_bind]
  rw [permute_roundtrip N fdims.prod V data hlen]

/-- Witness for C1 at `N = 1`, `featureDims = [2]`, `V = 2`. -/
theorem c1_output_convention_roundtrip_witness :
    (new_output_convention ⟨[1, 2, 2], [1, 2, 3, 4]⟩ [1, 2]).bind
        (fun t => old_output_convention t [1, 2]) =
      some ⟨[1, 2, 2], [1, 2, 3, 4]⟩ :=
  c1_output_convention_roundtrip 1 2 [2] [1, 2, 3, 4] (by decide)

theorem permute_vi_to_iv_length (v i : Nat) (data : List ℚ) :
    (permute_vi_to_iv v i data).length = i * v := by
  simp [permute_vi_to_iv]

/-- C8: with `sum_batch = true`, `old_weight_convention` maps a valid
`[V, *param_shape]` input to a `[param_numel, V]` output (no batch axis); with
`sum_batch = false` it maps a valid `[V, N, *param_shape]` input to an
`[N, param_numel, V]` output; in both cases the element count is unchanged. -/
theorem c8_old_weight_convention_shapes :
    (∀ (V : Nat) (wshape : List Nat) (data : List ℚ), wshape ≠ [] →
      data.length = V * wshape.prod →
      ∃ t, old_weight_convention ⟨V :: wshape, data⟩ wshape true = some t ∧
        t.shape = [wshape.prod, V] ∧ t.data.length = data.length) ∧
    (∀ (V N : Nat) (wshape : List Nat) (data : List ℚ),
      data.length = V * (N * wshape.prod) →
      ∃ t, old_weight_convention ⟨V :: N :: wshape, data⟩ wshape false = some t ∧
        t.shape = [N, wshape.prod, V] ∧ t.data.length = data.length) := by
  constructor
  · intro V wshape data hne hlen
    rcases wshape with _ | ⟨w, ws⟩
    · exact absurd rfl hne
    refine ⟨⟨[(w :: ws).prod, V], permute_vi_to_iv V (w :: ws).prod data⟩, ?_, rfl, ?_⟩
    · simp [old_weight_convention]
    · rw [permute_vi_to_iv_length, hlen, Nat.mul_comm]
  · intro V N wshape data hlen
    refine ⟨⟨[N, wshape.prod, V], permute_vnc_to_ncv V N wshape.prod data⟩, ?_, rfl, ?_⟩
    · simp [old_weight_convention]
    · rw [permute_vnc_to_ncv_length, hlen]
      ring

/-- Witness for C8 at `V = 2`, `param_shape = [2]` (and batch `N = 3` in the
non-summed case). -/
theorem c8_old_weight_convention_shapes_witness :
    (∃ t, old_weight_convention ⟨[2, 2], [1, 2, 3, 4]⟩ [2] true = some t ∧
      t.shape = [2, 2] ∧ t.data.length = 4) ∧
    (∃ t, old_weight_convention ⟨[1, 3, 2], [1, 2, 3, 4, 5, 6]⟩ [2] false = some t ∧
      t.shape = [3, 2, 1] ∧ t.data.length = 6) :=
  ⟨c8_old_weight_convention_shapes.1 2 [2] [1, 2, 3, 4] (by decide) (by decide),
   c8_old_weight_convention_shapes.2 1 3 [2] [1, 2, 3, 4, 5, 6] (by decide)⟩

/- ------------------------------------------------------------------ -/
/- Kronecker-factor algebra: lemmas and claims C3, C6, C7, C10.        -/
/- ------------------------------------------------------------------ -/

theorem is_matrix_shape (t : Tensor) (h : is_matrix t = true) :
    t.shape = [t.shape.getD 0 0, t.shape.getD 1 0] := by
  simp only [is_matrix, is_tensor_of_order, beq_iff_eq] at h
  rcases hs : t.shape with _ | ⟨a, _ | ⟨b, rest⟩⟩ <;> rw [hs] at h <;> simp_all

theorem kron2_shape (A B : Tensor) :
    (kron2 A B).shape =
      [A.shape.getD 0 0 * B.shape.getD 0 0, A.shape.getD 1 0 * B.shape.getD 1 0] := rfl

theorem kron2_is_matrix (A B : Tensor) : is_matrix (kron2 A B) = true := rfl

theorem kron2_entry (A B : Tensor) (r1 c1 r2 c2 : Nat)
    (hA : A.shape = [r1, c1]) (hB : B.shape = [r2, c2])
    (row col : Nat) (hrow : row < r1 * r2) (hcol : col < c1 * c2) :
    (kron2 A B).entry row col =
      A.entry (row / r2) (col / c2) * B.entry (row % r2) (col % c2) := by
  have hlt : row * (c1 * c2) + col < r1 * r2 * (c1 * c2) := by
    calc row * (c1 * c2) + col < row * (c1 * c2) + c1 * c2 := by omega
      _ = (row + 1) * (c1 * c2) := by ring
      _ ≤ r1 * r2 * (c1 * c2) := Nat.mul_le_mul_right _ (by omega)
  simp only [Tensor.entry, kron2, hA, hB, List.getD_cons_zero, List.getD_cons_succ]
  rw [getD_range_map _ _ _ hlt, decomp_div _ _ _ hcol, decomp_mod _ _ _ hcol]

/-- C3: `matrix_from_two_kron_facs(A, B)` on matrices `A : r1×c1`,
`B : r2×c2` has shape `(r1·r2, c1·c2)` and entry
`(i1·r2+i2, j1·c2+j2) = A[i1,j1]·B[i2,j2]`. -/
theorem c3_matrix_from_two_kron_facs (A B : Tensor) (r1 c1 r2 c2 : Nat)
    (hA : A.shape = [r1, c1]) (hB : B.shape = [r2, c2]) :
    ∃ M, matrix_from_two_kron_facs A B = some M ∧ M.shape = [r1 * r2, c1 * c2] ∧
      ∀ i1 i2 j1 j2, i1 < r1 → i2 < r2 → j1 < c1 → j2 < c2 →
        M.entry (i1 * r2 + i2) (j1 * c2 + j2) = A.entry i1 j1 * B.entry i2 j2 := by
  have hmA : is_matrix A = true := by simp [is_matrix, is_tensor_of_order, hA]
  have hmB : is_matrix B = true := by simp [is_matrix, is_tensor_of_order, hB]
  refine ⟨kron2 A B, by simp [matrix_from_two_kron_facs, hmA, hmB], ?_, ?_⟩
  · rw [kron2_shape, hA, hB]; rfl
  · intro i1 i2 j1 j2 h1 h2 h3 h4
    have hrow : i1 * r2 + i2 < r1 * r2 := by
      calc i1 * r2 + i2 < i1 * r2 + r2 := by omega
        _ = (i1 + 1) * r2 := by ring
        _ ≤ r1 * r2 := Nat.mul_le_mul_right _ (by omega)
    have hcol : j1 * c2 + j2 < c1 * c2 := by
      calc j1 * c2 + j2 < j1 * c2 + c2 := by omega
        _ = (j1 + 1) * c2 := by ring
        _ ≤ c1 * c2 := Nat.mul_le_mul_right _ (by omega)
    rw [kron2_entry A B r1 c1 r2 c2 hA hB _ _ hrow hcol,
      decomp_div _ _ _ h2, decomp_mod _ _ _ h2, decomp_div _ _ _ h4, decomp_mod _ _ _ h4]

/-- Witness for C3 on a 1×2 by 2×1 pair. -/
theorem c3_matrix_from_two_kron_facs_witness :
    ∃ M, matrix_from_two_kron_facs ⟨[1, 2], [1, 2]⟩ ⟨[2, 1], [3, 4]⟩ = some M ∧
      M.shape = [1 * 2, 2 * 1] ∧
      ∀ i1 i2 j1 j2, i1 < 1 → i2 < 2 → j1 < 2 → j2 < 1 →
        M.entry (i1 * 2 + i2) (j1 * 1 + j2) =
          Tensor.entry ⟨[1, 2], [1, 2]⟩ i1 j1 * Tensor.entry ⟨[2, 1], [3, 4]⟩ i2 j2 :=
  c3_matrix_from_two_kron_facs ⟨[1, 2], [1, 2]⟩ ⟨[2, 1], [3, 4]⟩ 1 2 2 1 rfl rfl

theorem kron_fold_value (rest : List Tensor) : ∀ (m : Tensor) (r c : Nat),
    m.shape = [r, c] → (∀ f ∈ rest, is_matrix f = true) →
    ∃ K, kron_fold (some m) rest = KronResult.value K ∧
      K.shape = [r * rowProd rest, c * colProd rest] := by
  induction rest with
  | nil =>
    intro m r c hm _
    exact ⟨m, rfl, by simp [rowProd, colProd, hm]⟩
  | cons f rest ih =>
    intro m r c hm hall
    have hf : is_matrix f = true := hall f (by simp)
    have hm2 : is_matrix m = true := by simp [is_matrix, is_tensor_of_order, hm]
    have hshape : (kron2 m f).shape = [r * f.shape.getD 0 0, c * f.shape.getD 1 0] := by
      rw [kron2_shape, hm]; rfl
    obtain ⟨K, hK, hKs⟩ := ih (kron2 m f) _ _ hshape (fun g hg => hall g (by simp [hg]))
    have heq : matrix_from_two_kron_facs m f = some (kron2 m f) := by
      simp [matrix_from_two_kron_facs, hm2, hf]
    refine ⟨K, ?_, ?_⟩
    · simp only [kron_fold, heq]
      exact hK
    · rw [hKs]
      simp [rowProd, colProd, Nat.mul_assoc]

theorem kron_fold_raised (rest : List Tensor) : ∀ m : Tensor, is_matrix m = true →
    (∃ f ∈ rest, ¬ is_matrix f = true) → kron_fold (some m) rest = KronResult.raised := by
  induction rest with
  | nil =>
    intro m _ h
    rcases h with ⟨f, hf, _⟩
    simp at hf
  | cons f rest ih =>
    intro m hm h
    by_cases hf : is_matrix f = true
    · rcases h with ⟨g, hg, hgbad⟩
      rcases (by simpa using hg : g = f ∨ g ∈ rest) with rfl | hgr
      · exact absurd hf hgbad
      · have heq : matrix_from_two_kron_facs m f = some (kron2 m f) := by
          simp [matrix_from_two_kron_facs, hm, hf]
        simp only [kron_fold, heq]
        exact ih (kron2 m f) (kron2_is_matrix m f) ⟨g, hgr, hgbad⟩
    · have heq : matrix_from_two_kron_facs m f = none := by
        simp [matrix_from_two_kron_facs, hf]
      simp only [kron_fold, heq]

/-- C6 (amended): on an empty factor list `matrix_from_kron_facs` returns the
value `None` (it does not raise); it raises whenever some factor is not
rank-2; and on a non-empty list of rank-2 factors it returns the repeated
pairwise Kronecker product, of shape `(∏ rows, ∏ cols)`. -/
theorem c6_matrix_from_kron_facs :
    matrix_from_kron_facs ([] : List Tensor) = KronResult.pyNone ∧
    (∀ factors : List Tensor, (∃ f ∈ factors, ¬ is_matrix f = true) →
      matrix_from_kron_facs factors = KronResult.raised) ∧
    (∀ (A : Tensor) (rest : List Tensor), is_matrix A = true →
      (∀ f ∈ rest, is_matrix f = true) →
      ∃ K, matrix_from_kron_facs (A :: rest) = KronResult.value K ∧
        K.shape = [rowProd (A :: rest), colProd (A :: rest)]) := by
  refine ⟨rfl, ?_, ?_⟩
  · intro factors h
    rcases factors with _ | ⟨f0, rest⟩
    · rcases h with ⟨f, hf, _⟩
      simp at hf
    by_cases hf0 : is_matrix f0 = true
    · rcases h with ⟨g, hg, hgbad⟩
      rcases (by simpa using hg : g = f0 ∨ g ∈ rest) with rfl | hgr
      · exact absurd hf0 hgbad
      · simp only [matrix_from_kron_facs, kron_fold, hf0, if_true]
        exact kron_fold_raised rest f0 hf0 ⟨g, hgr, hgbad⟩
    · simp [matrix_from_kron_facs, kron_fold, hf0]
  · intro A rest hA hall
    obtain ⟨K, hK, hKs⟩ :=
      kron_fold_value rest A _ _ (is_matrix_shape A hA) hall
    refine ⟨K, ?_, ?_⟩
    · simp only [matrix_from_kron_facs, kron_fold, hA, if_true]
      exact hK
    · rw [hKs]
      simp [rowProd, colProd]

/-- Counterexample to C6 as stated: on the empty list the code returns the
value `None` instead of raising. -/
theorem c6_matrix_from_kron_facs_counterexample :
    matrix_from_kron_facs ([] : List Tensor) = KronResult.pyNone ∧
    KronResult.pyNone ≠ KronResult.raised :=
  ⟨rfl, by decide⟩

/-- Witness for C6: a rank-1 factor raises; a 1×2 ⊗ 2×1 list yields a value
of the product shape. -/
theorem c6_matrix_from_kron_facs_witness :
    matrix_from_kron_facs [⟨[2], [1, 1]⟩] = KronResult.raised ∧
    ∃ K, matrix_from_kron_facs [⟨[1, 2], [1, 2]⟩, ⟨[2, 1], [3, 4]⟩] = KronResult.value K ∧
      K.shape = [rowProd [⟨[1, 2], [1, 2]⟩, ⟨[2, 1], [3, 4]⟩],
        colProd [⟨[1, 2], [1, 2]⟩, ⟨[2, 1], [3, 4]⟩]] :=
  ⟨c6_matrix_from_kron_facs.2.1 [⟨[2], [1, 1]⟩] ⟨⟨[2], [1, 1]⟩, by decide, by decide⟩,
   c6_matrix_from_kron_facs.2.2 ⟨[1, 2], [1, 2]⟩ [⟨[2, 1], [3, 4]⟩] (by decide) (by decide)⟩

theorem vp_go_none : ∀ (n : Nat) (letters : List Char) (a b c : String),
    letters.length < 2 * n → vp_equation_go n letters a b c = none := by
  intro n
  induction n with
  | zero =>
    intro letters a b c h
    omega
  | succ k ih =>
    intro letters a b c h
    rcases letters with _ | ⟨x, _ | ⟨y, rest⟩⟩
    · rfl
    · rfl
    · exact ih rest _ _ _ (by simp at h ⊢; omega)

theorem vp_go_some : ∀ (n : Nat) (letters : List Char) (a b c : String),
    2 * n ≤ letters.length → ∃ s, vp_equation_go n letters a b c = some s := by
  intro n
  induction n with
  | zero =>
    intro letters a b c _
    exact ⟨_, rfl⟩
  | succ k ih =>
    intro letters a b c h
    rcases letters with _ | ⟨x, _ | ⟨y, rest⟩⟩
    · simp at h
    · simp at h
      omega
    · exact ih rest _ _ _ (by simp at h ⊢; omega)

theorem all_tensors_iff (fs : List Tensor) :
    all_tensors_of_order 2 fs = true ↔ ∀ f ∈ fs, is_matrix f = true := by
  simp [all_tensors_of_order, is_matrix, List.all_eq_true]

/-- C7 (amended): the order-2 precondition check is the first thing
`vp_from_kron_facs` runs: whenever it fails, the call aborts with a bare
assertion failure before any factored computation. -/
theorem c7_vp_precondition_check (factors : List Tensor)
    (h : all_tensors_of_order 2 factors = false) :
    vp_from_kron_facs factors = none := by
  simp [vp_from_kron_facs, h]

/-- Witness for C7 on a single rank-1 factor. -/
theorem c7_vp_precondition_check_witness :
    vp_from_kron_facs [⟨[2], [1, 1]⟩] = none :=
  c7_vp_precondition_check [⟨[2], [1, 1]⟩] (by decide)

/-- Counterexample to C7 as stated: the failure carries no information about
the offending factor index — a list whose only non-rank-2 factor sits at
index 0 fails identically to one where it sits at index 1 (Python's bare
`assert` raises an argument-free `AssertionError`). -/
theorem c7_vp_precondition_check_counterexample :
    vp_from_kron_facs [⟨[2], [1, 1]⟩, ⟨[1, 1], [1]⟩] = none ∧
    vp_from_kron_facs [⟨[1, 1], [1]⟩, ⟨[2], [1, 1]⟩] = none ∧
    vp_from_kron_facs [⟨[2], [1, 1]⟩, ⟨[1, 1], [1]⟩] =
      vp_from_kron_facs [⟨[1, 1], [1]⟩, ⟨[2], [1, 1]⟩] :=
  ⟨rfl, rfl, rfl⟩

/-- C10: the einsum-equation builder draws two letters per factor from a
26-letter alphabet, so `vp_from_kron_facs` fails by generator exhaustion on
every list of 14 or more factors, even all-rank-2 ones, while every non-empty
list of at most 13 rank-2 factors still yields a product function. -/
theorem c10_vp_letter_limit :
    (∀ factors : List Tensor, (∀ f ∈ factors, is_matrix f = true) →
      14 ≤ factors.length → vp_from_kron_facs factors = none) ∧
    (∀ factors : List Tensor, factors ≠ [] → (∀ f ∈ factors, is_matrix f = true) →
      factors.length ≤ 13 → ∃ g, vp_from_kron_facs factors = some g) := by
  constructor
  · intro fs hall hlen
    have hcond : all_tensors_of_order 2 fs = true := (all_tensors_iff fs).2 hall
    have heq : vp_einsum_equation fs.length = none := by
      apply vp_go_none
      have h26 : get_letters.length = 26 := by decide
      omega
    rcases fs with _ | ⟨f0, rest⟩
    · simp at hlen
    · simp only [vp_from_kron_facs, hcond, if_true, heq]
  · intro fs hne hall hlen
    have hcond : all_tensors_of_order 2 fs = true := (all_tensors_iff fs).2 hall
    obtain ⟨s, heq⟩ : ∃ s, vp_einsum_equation fs.length = some s := by
      apply vp_go_some
      have h26 : get_letters.length = 26 := by decide
      omega
    rcases fs with _ | ⟨f0, rest⟩
    · exact absurd rfl hne
    · simp only [vp_from_kron_facs, hcond, if_true, heq]
      exact ⟨_, rfl⟩

/-- Witness for C10: 14 one-by-one factors fail, 13 succeed. -/
theorem c10_vp_letter_limit_witness :
    vp_from_kron_facs (List.replicate 14 ⟨[1, 1], [1]⟩) = none ∧
    ∃ g, vp_from_kron_facs (List.replicate 13 ⟨[1, 1], [1]⟩) = some g :=
  ⟨c10_vp_letter_limit.1 _ (by decide) (by decide),
   c10_vp_letter_limit.2 _ (by decide) (by decide) (by decide)⟩

/- ------------------------------------------------------------------ -/
/- Claim C2: factored product  =  dense Kronecker product times vector -/
/- ------------------------------------------------------------------ -/

theorem getD_eq_getElem_of_lt (l : List ℚ) (i : Nat) (h : i < l.length) :
    l.getD i 0 = l[i] := by
  rw [List.getD_eq_getElem?_getD, List.getElem?_eq_getElem h]
  rfl

theorem block_slice_getD (v : List ℚ) (s len k : Nat) (h : k < len) :
    (block_slice v s len).getD k 0 = v.getD (s + k) 0 := by
  simp only [block_slice, List.getD_eq_getElem?_getD, List.getElem?_take,
    List.getElem?_drop, h, if_true]

theorem block_slice_length (v : List ℚ) (s len : Nat) (h : s + len ≤ v.length) :
    (block_slice v s len).length = len := by
  simp only [block_slice, List.length_take, List.length_drop]
  omega

theorem sum_range_mul_decomp (f : Nat → ℚ) (m n : Nat) :
    Finset.sum (Finset.range (m * n)) f =
      Finset.sum (Finset.range m) fun j =>
        Finset.sum (Finset.range n) fun k => f (j * n + k) := by
  induction m with
  | zero => simp
  | succ p ih =>
    rw [Nat.succ_mul, Finset.sum_range_add, ih, Finset.sum_range_succ]

/-- Entry characterisation of the left fold of pairwise Kronecker products:
folding `rest` onto an `r × c` accumulator gives the matrix whose entries are
the accumulator entry times the mixed-radix product of the rest's entries. -/
theorem kron_fold_entry (rest : List Tensor) : ∀ (m : Tensor) (r c : Nat),
    m.shape = [r, c] → (∀ f ∈ rest, is_matrix f = true) →
    ∃ K, kron_fold (some m) rest = KronResult.value K ∧
      K.shape = [r * rowProd rest, c * colProd rest] ∧
      ∀ i j, i < r * rowProd rest → j < c * colProd rest →
        K.entry i j = m.entry (i / rowProd rest) (j / colProd rest) *
          kronListEntry rest (i % rowProd rest) (j % colProd rest) := by
  induction rest with
  | nil =>
    intro m r c hm _
    refine ⟨m, rfl, by simp [rowProd, colProd, hm], ?_⟩
    intro i j hi hj
    simp [rowProd, colProd, kronListEntry]
  | cons f rest ih =>
    intro m r c hm hall
    have hf : is_matrix f = true := hall f (by simp)
    have hfs : f.shape = [f.shape.getD 0 0, f.shape.getD 1 0] := is_matrix_shape f hf
    have hm2 : is_matrix m = true := by simp [is_matrix, is_tensor_of_order, hm]
    have hshape : (kron2 m f).shape = [r * f.shape.getD 0 0, c * f.shape.getD 1 0] := by
      rw [kron2_shape, hm]; rfl
    obtain ⟨K, hK, hKs, hKe⟩ := ih (kron2 m f) _ _ hshape (fun g hg => hall g (by simp [hg]))
    have heq : matrix_from_two_kron_facs m f = some (kron2 m f) := by
      simp [matrix_from_two_kron_facs, hm2, hf]
    have hrow : rowProd (f :: rest) = f.shape.getD 0 0 * rowProd rest := by simp [rowProd]
    have hcol : colProd (f :: rest) = f.shape.getD 1 0 * colProd rest := by simp [colProd]
    refine ⟨K, ?_, ?_, ?_⟩
    · simp only [kron_fold, heq]
      exact hK
    · rw [hKs, hrow, hcol, Nat.mul_assoc, Nat.mul_assoc]
    · intro i j hi hj
      rw [hrow] at hi
      rw [hcol] at hj
      have hi' : i < r * f.shape.getD 0 0 * rowProd rest := by rw [Nat.mul_assoc]; exact hi
      have hj' : j < c * f.shape.getD 1 0 * colProd rest := by rw [Nat.mul_assoc]; exact hj
      have hidiv : i / rowProd rest < r * f.shape.getD 0 0 := by
        apply Nat.div_lt_of_lt_mul
        rw [Nat.mul_comm]
        exact hi'
      have hjdiv : j / colProd rest < c * f.shape.getD 1 0 := by
        apply Nat.div_lt_of_lt_mul
        rw [Nat.mul_comm]
        exact hj'
      have hker := kron2_entry m f r c (f.shape.getD 0 0) (f.shape.getD 1 0) hm hfs
        (i / rowProd rest) (j / colProd rest) hidiv hjdiv
      rw [hKe i j hi' hj', hker, hrow, hcol]
      simp only [kronListEntry]
      have e1 : i / (f.shape.getD 0 0 * rowProd rest) = i / rowProd rest / f.shape.getD 0 0 := by
        rw [Nat.div_div_eq_div_mul, Nat.mul_comm]
      have e2 : i % (f.shape.getD 0 0 * rowProd rest) / rowProd rest =
          i / rowProd rest % f.shape.getD 0 0 := by
        rw [Nat.mul_comm, Nat.mod_mul_right_div_self]
      have e3 : i % (f.shape.getD 0 0 * rowProd rest) % rowProd rest = i % rowProd rest :=
        Nat.mod_mod_of_dvd i (dvd_mul_left _ _)
      have e4 : j / (f.shape.getD 1 0 * colProd rest) = j / colProd rest / f.shape.getD 1 0 := by
        rw [Nat.div_div_eq_div_mul, Nat.mul_comm]
      have e5 : j % (f.shape.getD 1 0 * colProd rest) / colProd rest =
          j / colProd rest % f.shape.getD 1 0 := by
        rw [Nat.mul_comm, Nat.mod_mul_right_div_self]
      have e6 : j % (f.shape.getD 1 0 * colProd rest) % colProd rest = j % colProd rest :=
        Nat.mod_mod_of_dvd j (dvd_mul_left _ _)
      rw [e1, e2, e3, e4, e5, e6]
      ring

/-- Entry characterisation of the einsum contraction: applying a factor list
to a flat vector of matching length computes, at each output position, the
dense row of the Kronecker product dotted with the vector. -/
theorem vp_apply_entry : ∀ (factors : List Tensor) (v : List ℚ),
    v.length = colProd factors →
    ∀ ρ, ρ < rowProd factors →
    (vp_einsum_apply factors v).getD ρ 0 =
      Finset.sum (Finset.range (colProd factors)) fun γ =>
        kronListEntry factors ρ γ * v.getD γ 0 := by
  intro factors
  induction factors with
  | nil =>
    intro v hv ρ hρ
    have h1 : rowProd ([] : List Tensor) = 1 := by simp [rowProd]
    have h2 : colProd ([] : List Tensor) = 1 := by simp [colProd]
    rw [h1] at hρ
    have hρ0 : ρ = 0 := by omega
    subst hρ0
    rw [h2]
    simp [vp_einsum_apply, kronListEntry, Finset.sum_range_one]
  | cons A rest ih =>
    intro v hv ρ hρ
    have hrow : rowProd (A :: rest) = A.shape.getD 0 0 * rowProd rest := by simp [rowProd]
    have hcol : colProd (A :: rest) = A.shape.getD 1 0 * colProd rest := by simp [colProd]
    rw [hrow] at hρ
    rw [hcol] at hv
    have hR : 0 < rowProd rest := by
      rcases Nat.eq_zero_or_pos (rowProd rest) with h0 | h
      · rw [h0, Nat.mul_zero] at hρ
        omega
      · exact h
    have hL : (vp_einsum_apply (A :: rest) v).getD ρ 0 =
        Finset.sum (Finset.range (A.shape.getD 1 0)) fun j =>
          A.entry (ρ / rowProd rest) j *
            (vp_einsum_apply rest
              (block_slice v (j * colProd rest) (colProd rest))).getD (ρ % rowProd rest) 0 := by
      simp only [vp_einsum_apply]
      exact getD_range_map _ _ _ hρ
    rw [hL, hcol, sum_range_mul_decomp]
    apply Finset.sum_congr rfl
    intro j hj
    rw [Finset.mem_range] at hj
    have hblen : (block_slice v (j * colProd rest) (colProd rest)).length = colProd rest := by
      apply block_slice_length
      rw [hv]
      calc j * colProd rest + colProd rest = (j + 1) * colProd rest := by ring
        _ ≤ A.shape.getD 1 0 * colProd rest := Nat.mul_le_mul_right _ (by omega)
    rw [ih (block_slice v (j * colProd rest) (colProd rest)) hblen
      (ρ % rowProd rest) (Nat.mod_lt _ hR)]
    rw [Finset.mul_sum]
    apply Finset.sum_congr rfl
    intro γ hγ
    rw [Finset.mem_range] at hγ
    rw [block_slice_getD _ _ _ _ hγ]
    simp only [kronListEntry]
    rw [decomp_div _ _ _ hγ, decomp_mod _ _ _ hγ]
    ring

theorem dense_matvec_getD (K : Tensor) (R C : Nat) (hK : K.shape = [R, C])
    (v : List ℚ) (ρ : Nat) (hρ : ρ < R) :
    (dense_matvec K v).getD ρ 0 =
      Finset.sum (Finset.range C) fun j => K.entry ρ j * v.getD j 0 := by
  simp only [dense_matvec, hK, List.getD_cons_zero, List.getD_cons_succ]
  exact getD_range_map _ _ _ hρ

theorem vp_einsum_apply_cons_length (A : Tensor) (rest : List Tensor) (v : List ℚ) :
    (vp_einsum_apply (A :: rest) v).length = A.shape.getD 0 0 * rowProd rest := by
  simp [vp_einsum_apply]

/-- C2 (amended): for every non-empty list of at most 13 rank-2 factors and
every 1-D vector whose length is the product of the column counts, the
factored product `multiply_vec_with_kron_facs` succeeds and equals the dense
product of `matrix_from_kron_facs` with the vector. -/
theorem c2_kron_vp_equivalence (A : Tensor) (rest : List Tensor) (v : Tensor)
    (hA : is_matrix A = true) (hrest : ∀ f ∈ rest, is_matrix f = true)
    (hlen : (A :: rest).length ≤ 13)
    (hv1 : v.shape = [colProd (A :: rest)])
    (hv2 : v.data.length = colProd (A :: rest)) :
    ∃ K, matrix_from_kron_facs (A :: rest) = KronResult.value K ∧
      multiply_vec_with_kron_facs (A :: rest) v =
        some ⟨[rowProd (A :: rest)], dense_matvec K v.data⟩ := by
  obtain ⟨K, hK, hKs, hKe⟩ := kron_fold_entry rest A _ _ (is_matrix_shape A hA) hrest
  have hrow : rowProd (A :: rest) = A.shape.getD 0 0 * rowProd rest := by simp [rowProd]
  have hcol : colProd (A :: rest) = A.shape.getD 1 0 * colProd rest := by simp [colProd]
  refine ⟨K, ?_, ?_⟩
  · simp only [matrix_from_kron_facs, kron_fold, hA, if_true]
    exact hK
  · have hcond : all_tensors_of_order 2 (A :: rest) = true := by
      apply (all_tensors_iff _).2
      intro f hf
      rcases (by simpa using hf : f = A ∨ f ∈ rest) with rfl | h
      · exact hA
      · exact hrest f h
    obtain ⟨s, heq⟩ : ∃ s, vp_einsum_equation (A :: rest).length = some s := by
      apply vp_go_some
      have h26 : get_letters.length = 26 := by decide
      simp only [List.length_cons] at hlen ⊢
      omega
    have hv1' : v.shape.length = 1 := by rw [hv1]; rfl
    simp only [multiply_vec_with_kron_facs, vp_from_kron_facs, hcond, if_true, heq,
      hv1', hv2, if_pos rfl]
    simp only [Option.some.injEq, Tensor.mk.injEq, true_and]
    apply List.ext_getElem
    · rw [vp_einsum_apply_cons_length]
      simp [dense_matvec, hKs]
    · intro ρ h1 h2
      rw [vp_einsum_apply_cons_length] at h1
      have hρ : ρ < rowProd (A :: rest) := by rw [hrow]; exact h1
      rw [← getD_eq_getElem_of_lt _ _ (by rw [vp_einsum_apply_cons_length]; exact h1),
        ← getD_eq_getElem_of_lt _ _ h2]
      rw [vp_apply_entry (A :: rest) v.data hv2 ρ hρ,
        dense_matvec_getD K _ _ hKs v.data ρ h1]
      apply Finset.sum_congr rfl
      intro γ hγ
      rw [Finset.mem_range] at hγ
      rw [hKe ρ γ (by rw [← hrow]; exact hρ) hγ]
      simp only [kronListEntry]

/-- Counterexample to C2 as stated: on 14 valid rank-2 factors the factored
product call fails (letter exhaustion) while the dense product is a perfectly
good value, so the two sides are not equal for every rank-2 factor list. -/
theorem c2_kron_vp_equivalence_counterexample :
    multiply_vec_with_kron_facs (List.replicate 14 ⟨[1, 1], [1]⟩) ⟨[1], [1]⟩ = none ∧
    ∃ K, matrix_from_kron_facs (List.replicate 14 ⟨[1, 1], [1]⟩) = KronResult.value K := by
  constructor
  · decide
  · obtain ⟨K, hK, _⟩ :=
      kron_fold_value (List.replicate 13 ⟨[1, 1], [1]⟩) ⟨[1, 1], [1]⟩ 1 1 rfl (by decide)
    exact ⟨K, hK⟩

/-- Witness for C2 on `[1×2, 2×1]` factors and `v = (5, 7)`. -/
theorem c2_kron_vp_equivalence_witness :
    ∃ K, matrix_from_kron_facs [(⟨[1, 2], [1, 2]⟩ : Tensor), ⟨[2, 1], [3, 4]⟩] =
        KronResult.value K ∧
      multiply_vec_with_kron_facs [⟨[1, 2], [1, 2]⟩, ⟨[2, 1], [3, 4]⟩] ⟨[2], [5, 7]⟩ =
        some ⟨[rowProd [⟨[1, 2], [1, 2]⟩, ⟨[2, 1], [3, 4]⟩]], dense_matvec K [5, 7]⟩ :=
  c2_kron_vp_equivalence ⟨[1, 2], [1, 2]⟩ [⟨[2, 1], [3, 4]⟩] ⟨[2], [5, 7]⟩
    (by decide) (by decide) (by decide) (by decide) (by decide)

/- ------------------------------------------------------------------ -/
/- Claims C4 and C5: the HBP convolution handler.                      -/
/- ------------------------------------------------------------------ -/

/-- C4: under the square-root backprop strategy with the non-averaging
expectation approximation, `HBPConv2d.weight` returns exactly the two factors
`[factor from the backpropagated square root, Xᵀ X / batch]` in this order,
and `HBPConv2d.bias` returns the one-element list with the square-root factor
only. -/
theorem c4_hbp_conv2d_factor_lists (sqrt_sep X : Tensor) (b i j c b2 i2 k2 : Nat)
    (hs : sqrt_sep.shape = [b, i, j, c]) (hX : X.shape = [b2, i2, k2]) :
    ∃ f1 xtx, hbp_conv2d_factor_from_sqrt sqrt_sep = some f1 ∧
      einsum_bik_bjk_to_ij X = some xtx ∧
      hbp_conv2d_weight sqrt_sep X BackpropStrategy.sqrt
          ExpectationApproximation.monte_carlo = some [f1, tensor_div xtx b2] ∧
      hbp_conv2d_bias sqrt_sep BackpropStrategy.sqrt
          ExpectationApproximation.monte_carlo = some [f1] := by
  obtain ⟨f1, hf1⟩ : ∃ f1, hbp_conv2d_factor_from_sqrt sqrt_sep = some f1 := by
    simp only [hbp_conv2d_factor_from_sqrt, einsum_bijc_to_bic, hs, Option.some_bind,
      einsum_bic_blc_to_il]
    exact ⟨_, rfl⟩
  obtain ⟨xtx, hxtx⟩ : ∃ x, einsum_bik_bjk_to_ij X = some x := by
    simp only [einsum_bik_bjk_to_ij, hX]
    exact ⟨_, rfl⟩
  refine ⟨f1, xtx, hf1, hxtx, ?_, ?_⟩
  · have hin : hbp_conv2d_factors_from_input X ExpectationApproximation.monte_carlo =
        some [tensor_div xtx b2] := by
      simp [hbp_conv2d_factors_from_input, ExpectationApproximation.should_average_param_jac,
        hX, hxtx]
    simp [hbp_conv2d_weight, BackpropStrategy.is_batch_average, BackpropStrategy.is_sqrt,
      hf1, hin]
  · simp [hbp_conv2d_bias, BackpropStrategy.is_batch_average, BackpropStrategy.is_sqrt, hf1]

/-- Witness for C4 on a `[1,1,1,1]` square root and a `[1,1,1]` unfolded
input. -/
theorem c4_hbp_conv2d_factor_lists_witness :
    ∃ f1 xtx, hbp_conv2d_factor_from_sqrt ⟨[1, 1, 1, 1], [1]⟩ = some f1 ∧
      einsum_bik_bjk_to_ij ⟨[1, 1, 1], [2]⟩ = some xtx ∧
      hbp_conv2d_weight ⟨[1, 1, 1, 1], [1]⟩ ⟨[1, 1, 1], [2]⟩ BackpropStrategy.sqrt
          ExpectationApproximation.monte_carlo = some [f1, tensor_div xtx 1] ∧
      hbp_conv2d_bias ⟨[1, 1, 1, 1], [1]⟩ BackpropStrategy.sqrt
          ExpectationApproximation.monte_carlo = some [f1] :=
  c4_hbp_conv2d_factor_lists ⟨[1, 1, 1, 1], [1]⟩ ⟨[1, 1, 1], [2]⟩ 1 1 1 1 1 1 1 rfl rfl

/-- C5 (amended): the batch-average strategy raises `NotImplementedError` in
both `weight` and `bias`; the averaging expectation approximation raises in
`weight`; but `bias` never consults the expectation approximation. -/
theorem c5_not_implemented_variants :
    (∀ (sqrt_sep X : Tensor) (ea : ExpectationApproximation),
      hbp_conv2d_weight sqrt_sep X BackpropStrategy.batch_average ea = none) ∧
    (∀ (sqrt_sep : Tensor) (ea : ExpectationApproximation),
      hbp_conv2d_bias sqrt_sep BackpropStrategy.batch_average ea = none) ∧
    (∀ sqrt_sep X : Tensor,
      hbp_conv2d_weight sqrt_sep X BackpropStrategy.sqrt
        ExpectationApproximation.average_param_jac = none) := by
  refine ⟨fun s X ea => rfl, fun s ea => rfl, fun s X => ?_⟩
  have h : hbp_conv2d_factors_from_input X ExpectationApproximation.average_param_jac =
      none := by
    simp [hbp_conv2d_factors_from_input, ExpectationApproximation.should_average_param_jac]
  cases hcase : hbp_conv2d_factor_from_sqrt s <;>
    simp [hbp_conv2d_weight, BackpropStrategy.is_batch_average, BackpropStrategy.is_sqrt,
      hcase, h]

/-- Counterexample to C5 as stated: `bias` ignores the expectation
approximation, so selecting `should_average_param_jac` there returns a factor
list instead of raising. -/
theorem c5_not_implemented_variants_counterexample :
    ∃ fs, hbp_conv2d_bias ⟨[1, 1, 1, 1], [1]⟩ BackpropStrategy.sqrt
        ExpectationApproximation.average_param_jac = some fs :=
  ⟨_, rfl⟩

/- ------------------------------------------------------------------ -/
/- Claim C9: the three shape-convention wrappers.                      -/
/- ------------------------------------------------------------------ -/

theorem add_V_dim_shape (t : Tensor) : (add_V_dim t).shape = t.shape ++ [1] := rfl

theorem remove_V_dim_shape3 (t : Tensor) (x y : Nat) (h : t.shape = [x, y, 1]) :
    (remove_V_dim t).shape = [x, y] := by
  simp [remove_V_dim, h]

theorem remove_V_dim_shape2 (t : Tensor) (x : Nat) (h : t.shape = [x, 1]) :
    (remove_V_dim t).shape = [x] := by
  simp [remove_V_dim, h]

theorem new_output_convention_inv (t : Tensor) (os : List Nat) (m : Tensor)
    (h : new_output_convention t os = some m) :
    ∃ N fd v, os = N :: fd ∧ t.shape = [N, fd.prod, v] ∧ m.shape = v :: N :: fd := by
  unfold new_output_convention at h
  split at h
  · rename_i N fd n d v heq
    split at h
    · rename_i hc
      injection h with h
      exact ⟨n, fd, v, by rw [hc.1], by rw [heq, hc.2], by rw [← h, hc.1]⟩
    · exact absurd h (by simp)
  · exact absurd h (by simp)

theorem old_input_convention_inv (r : Tensor) (is0 : List Nat) (r2 : Tensor)
    (h : old_input_convention r is0 = some r2) :
    ∃ N fd v, is0 = N :: fd ∧ r.shape = v :: N :: fd ∧ r2.shape = [N, fd.prod, v] := by
  unfold old_input_convention at h
  split at h
  · rename_i N fd v n rest heq
    split at h
    · rename_i hc
      injection h with h
      exact ⟨n, rest, v, by rw [hc.1, hc.2], heq, by rw [← h, hc.1, hc.2]⟩
    · exact absurd h (by simp)
  · exact absurd h (by simp)

theorem old_output_convention_inv (r : Tensor) (os : List Nat) (r2 : Tensor)
    (h : old_output_convention r os = some r2) :
    ∃ N fd v, os = N :: fd ∧ r.shape = v :: N :: fd ∧ r2.shape = [N, fd.prod, v] := by
  unfold old_output_convention at h
  split at h
  · rename_i N fd v n rest heq
    split at h
    · rename_i hc
      injection h with h
      exact ⟨n, rest, v, by rw [hc.1, hc.2], heq, by rw [← h, hc.1, hc.2]⟩
    · exact absurd h (by simp)
  · exact absurd h (by simp)

theorem new_input_convention_inv (t : Tensor) (is0 : List Nat) (m : Tensor)
    (h : new_input_convention t is0 = some m) :
    ∃ N fd v, is0 = N :: fd ∧ t.shape = [N, fd.prod, v] ∧ m.shape = v :: N :: fd := by
  unfold new_input_convention at h
  split at h
  · rename_i N fd n d v heq
    split at h
    · rename_i hc
      injection h with h
      exact ⟨n, fd, v, by rw [hc.1], by rw [heq, hc.2], by rw [← h, hc.1]⟩
    · exact absurd h (by simp)
  · exact absurd h (by simp)

theorem old_weight_convention_inv_true (r : Tensor) (ws : List Nat) (r2 : Tensor)
    (h : old_weight_convention r ws true = some r2) :
    ∃ v, r2.shape = [ws.prod, v] ∧ r.shape.head? = some v := by
  unfold old_weight_convention at h
  split at h
  · rename_i v N rest heq
    rw [if_pos rfl] at h
    split at h
    · injection h with h
      subst h
      exact ⟨v, rfl, by rw [heq]; rfl⟩
    · exact absurd h (by simp)
  · exact absurd h (by simp)

theorem old_weight_convention_inv_false (r : Tensor) (ws : List Nat) (r2 : Tensor)
    (h : old_weight_convention r ws false = some r2) :
    ∃ v N, r2.shape = [N, ws.prod, v] ∧ r.shape.head? = some v := by
  unfold old_weight_convention at h
  split at h
  · rename_i v N rest heq
    rw [if_neg (by simp)] at h
    split at h
    · injection h with h
      subst h
      exact ⟨v, N, rfl, by rw [heq]; rfl⟩
    · exact absurd h (by simp)
  · exact absurd h (by simp)

/-- C9 (amended): each wrapper promotes a rank-2 input with `add_V_dim`,
converts old→new before the handler, converts the handler output new→old and
strips the synthetic `V` axis again, while a rank-3 input passes through the
same conversions without promotion or demotion.  For `V`-preserving handlers
a rank-2 input yields a rank-2 output from the transposed-Jacobian and
forward-Jacobian wrappers and from the parameter-Jacobian wrapper with
`sum_batch = false`; with the default `sum_batch = true` the batch axis is
collapsed and the parameter-Jacobian wrapper returns a rank-1
`[param_numel]` output instead. -/
theorem c9_wrapper_contract :
    (∀ jmp (module : ModuleRecord) (mat : Tensor), mat.shape.length = 2 →
      jac_t_new_shape_convention jmp module mat =
        (new_output_convention (add_V_dim mat) module.output_shape).bind fun conv =>
          (jmp module conv).bind fun res =>
            (old_input_convention res module.input0_shape).map remove_V_dim) ∧
    (∀ jmp (module : ModuleRecord) (mat : Tensor), mat.shape.length = 3 →
      jac_t_new_shape_convention jmp module mat =
        (new_output_convention mat module.output_shape).bind fun conv =>
          (jmp module conv).bind fun res =>
            old_input_convention res module.input0_shape) ∧
    (∀ jmp (module : ModuleRecord) (mat : Tensor),
      (∀ t r, jmp module t = some r → r.shape.head? = t.shape.head?) →
      mat.shape.length = 2 → ∀ out,
        jac_t_new_shape_convention jmp module mat = some out →
        out.shape.length = 2) ∧
    (∀ jmp (module : ModuleRecord) (mat : Tensor) ks, mat.shape.length = 2 →
      weight_jac_t_new_shape_convention jmp module mat ks =
        (new_output_convention (add_V_dim mat) module.output_shape).bind fun conv =>
          (jmp module conv).bind fun res =>
            (old_weight_convention res module.weight_shape (ks.getD true)).map
              remove_V_dim) ∧
    (∀ jmp (module : ModuleRecord) (mat : Tensor) ks, mat.shape.length = 3 →
      weight_jac_t_new_shape_convention jmp module mat ks =
        (new_output_convention mat module.output_shape).bind fun conv =>
          (jmp module conv).bind fun res =>
            old_weight_convention res module.weight_shape (ks.getD true)) ∧
    (∀ jmp (module : ModuleRecord) (mat : Tensor),
      (∀ t r, jmp module t = some r → r.shape.head? = t.shape.head?) →
      mat.shape.length = 2 → ∀ out,
        weight_jac_t_new_shape_convention jmp module mat (some false) = some out →
        out.shape.length = 2) ∧
    (∀ jmp (module : ModuleRecord) (mat : Tensor),
      (∀ t r, jmp module t = some r → r.shape.head? = t.shape.head?) →
      mat.shape.length = 2 → ∀ out,
        weight_jac_t_new_shape_convention jmp module mat none = some out →
        out.shape.length = 1) ∧
    (∀ jmp (module : ModuleRecord) (mat : Tensor), mat.shape.length = 2 →
      jac_new_shape_convention jmp module mat =
        (new_input_convention (add_V_dim mat) module.input0_shape).bind fun conv =>
          (jmp module conv).bind fun res =>
            (old_output_convention res module.output_shape).map remove_V_dim) ∧
    (∀ jmp (module : ModuleRecord) (mat : Tensor), mat.shape.length = 3 →
      jac_new_shape_convention jmp module mat =
        (new_input_convention mat module.input0_shape).bind fun conv =>
          (jmp module conv).bind fun res =>
            old_output_convention res module.output_shape) ∧
    (∀ jmp (module : ModuleRecord) (mat : Tensor),
      (∀ t r, jmp module t = some r → r.shape.head? = t.shape.head?) →
      mat.shape.length = 2 → ∀ out,
        jac_new_shape_convention jmp module mat = some out →
        out.shape.length = 2) := by
  have hv1 : ∀ (mat : Tensor), mat.shape.length = 2 → ∀ (os : List Nat) (conv : Tensor),
      new_output_convention (add_V_dim mat) os = some conv → conv.shape.head? = some 1 := by
    intro mat h2 os conv hconv
    obtain ⟨N, fd, v, hos, hsh, hcs⟩ := new_output_convention_inv _ _ _ hconv
    rw [add_V_dim_shape] at hsh
    rcases hmat : mat.shape with _ | ⟨a, _ | ⟨b, rest⟩⟩ <;> rw [hmat] at h2 <;> simp at h2
    · rw [hmat, h2] at hsh
      simp at hsh
      have hv : v = 1 := by omega
      rw [hcs, hv]
      rfl
  have hv1' : ∀ (mat : Tensor), mat.shape.length = 2 → ∀ (is0 : List Nat) (conv : Tensor),
      new_input_convention (add_V_dim mat) is0 = some conv → conv.shape.head? = some 1 := by
    intro mat h2 is0 conv hconv
    obtain ⟨N, fd, v, hos, hsh, hcs⟩ := new_input_convention_inv _ _ _ hconv
    rw [add_V_dim_shape] at hsh
    rcases hmat : mat.shape with _ | ⟨a, _ | ⟨b, rest⟩⟩ <;> rw [hmat] at h2 <;> simp at h2
    · rw [hmat, h2] at hsh
      simp at hsh
      have hv : v = 1 := by omega
      rw [hcs, hv]
      rfl
  refine ⟨?_, ?_, ?_, ?_, ?_, ?_, ?_, ?_, ?_, ?_⟩
  · intro jmp module mat h2
    simp [jac_t_new_shape_convention, h2]
  · intro jmp module mat h3
    have hne : ¬ (mat.shape.length = 2) := by omega
    simp [jac_t_new_shape_convention, hne]
  · intro jmp module mat hjmp h2 out hout
    simp only [jac_t_new_shape_convention, h2, if_true, Option.bind_eq_some,
      Option.map_eq_some'] at hout
    obtain ⟨conv, hconv, res, hres, back, hback, hout⟩ := hout
    obtain ⟨N, fd, v, his, hrs, hbs⟩ := old_input_convention_inv _ _ _ hback
    have hhead : res.shape.head? = some 1 :=
      (hjmp conv res hres).trans (hv1 mat h2 module.output_shape conv hconv)
    rw [hrs] at hhead
    have hv : v = 1 := by
      injection hhead
    subst hv
    rw [← hout, remove_V_dim_shape3 back N fd.prod hbs]
    rfl
  · intro jmp module mat ks h2
    simp [weight_jac_t_new_shape_convention, h2]
  · intro jmp module mat ks h3
    have hne : ¬ (mat.shape.length = 2) := by omega
    simp [weight_jac_t_new_shape_convention, hne]
  · intro jmp module mat hjmp h2 out hout
    simp only [weight_jac_t_new_shape_convention, h2, if_true, Option.bind_eq_some,
      Option.map_eq_some', Option.getD_some] at hout
    obtain ⟨conv, hconv, res, hres, back, hback, hout⟩ := hout
    obtain ⟨v, N, hbs, hh⟩ := old_weight_convention_inv_false _ _ _ hback
    have hhead : res.shape.head? = some 1 :=
      (hjmp conv res hres).trans (hv1 mat h2 module.output_shape conv hconv)
    rw [hh] at hhead
    have hv : v = 1 := by
      injection hhead
    subst hv
    rw [← hout, remove_V_dim_shape3 back N module.weight_shape.prod hbs]
    rfl
  · intro jmp module mat hjmp h2 out hout
    simp only [weight_jac_t_new_shape_convention, h2, if_true, Option.bind_eq_some,
      Option.map_eq_some', Option.getD_none] at hout
    obtain ⟨conv, hconv, res, hres, back, hback, hout⟩ := hout
    obtain ⟨v, hbs, hh⟩ := old_weight_convention_inv_true _ _ _ hback
    have hhead : res.shape.head? = some 1 :=
      (hjmp conv res hres).trans (hv1 mat h2 module.output_shape conv hconv)
    rw [hh] at hhead
    have hv : v = 1 := by
      injection hhead
    subst hv
    rw [← hout, remove_V_dim_shape2 back module.weight_shape.prod hbs]
    rfl
  · intro jmp module mat h2
    simp [jac_new_shape_convention, h2]
  · intro jmp module mat h3
    have hne : ¬ (mat.shape.length = 2) := by omega
    simp [jac_new_shape_convention, hne]
  · intro jmp module mat hjmp h2 out hout
    simp only [jac_new_shape_convention, h2, if_true, Option.bind_eq_some,
      Option.map_eq_some'] at hout
    obtain ⟨conv, hconv, res, hres, back, hback, hout⟩ := hout
    obtain ⟨N, fd, v, his, hrs, hbs⟩ := old_output_convention_inv _ _ _ hback
    have hhead : res.shape.head? = some 1 :=
      (hjmp conv res hres).trans (hv1' mat h2 module.input0_shape conv hconv)
    rw [hrs] at hhead
    have hv : v = 1 := by
      injection hhead
    subst hv
    rw [← hout, remove_V_dim_shape3 back N fd.prod hbs]
    rfl

/-- Counterexample to C9 as stated: the parameter-Jacobian wrapper with the
default `sum_batch = true` maps a rank-2 input to a rank-1 output — the
batch-summed `[param_numel, V=1]` conversion result loses its last axis to
`remove_V_dim`. -/
theorem c9_wrapper_contract_counterexample :
    weight_jac_t_new_shape_convention (fun _ _ => some ⟨[1, 2], [8, 9]⟩)
        ⟨[1, 1], [1, 1], [2]⟩ ⟨[1, 1], [5]⟩ none = some ⟨[2], [8, 9]⟩ ∧
    (Tensor.mk [1, 1] [5]).shape.length = 2 ∧
    (Tensor.mk [2] [8, 9]).shape.length = 1 :=
  ⟨by decide, rfl, rfl⟩

/-- Witness for C9: the transposed-Jacobian wrapper keeps a rank-2 input
rank 2, while the parameter-Jacobian wrapper with default keyword arguments
turns it rank 1. -/
theorem c9_wrapper_contract_witness :
    (Tensor.mk [1, 1] [5]).shape.length = 2 ∧
    (Tensor.mk [1] [5]).shape.length = 1 :=
  ⟨c9_wrapper_contract.2.2.1 (fun _ t => some t) ⟨[1, 1], [1, 1], [2]⟩ ⟨[1, 1], [5]⟩
      (fun t r h => by injection h with h; rw [h]) (by decide) ⟨[1, 1], [5]⟩ (by decide),
   c9_wrapper_contract.2.2.2.2.2.2.1 (fun _ t => some t) ⟨[1, 1], [1, 1], [1, 1]⟩
      ⟨[1, 1], [5]⟩ (fun t r h => by injection h with h; rw [h]) (by decide)
      ⟨[1], [5]⟩ (by decide)⟩
